import Mathlib

/-!
Shallow embedding of the differential-growth step of
`blender-differential-growth` (`src/op_grow.py`).

Modelling conventions:
  * Python floats are modelled as real numbers (`ℝ`).
  * `mathutils.Vector` (3D) is modelled as `Vec3 := Fin 3 → ℝ`.
  * A bmesh vertex is a position together with the deform-layer entry for
    the active vertex-group index.  In the source, `get_vertex_weight`
    reads `weights[group_index] if group_index in weights else 0` and
    `set_vertex_weight` stores `weights[group_index] = weight`; the
    presence or absence of the `group_index` entry is modelled as an
    `Option ℝ` per vertex, so the `group_index` indirection itself drops
    out.
  * Vertex identity is the vertex's index in the mesh's vertex list
    (`vert.index` after `bm.from_mesh`).
  * The external `mathutils.noise.noise_vector` field is a parameter
    (`noiseFn`) of the step; the external `bmesh.ops.subdivide_edges`
    primitive is not modelled — the step's result records which edges the
    source hands to it (`edges_to_subdivide`).
  * Python raises `ZeroDivisionError` on float division by zero and on
    `0.0 ** negativeExponent`; both sites are modelled with an `Except`
    monad (`pyDiv`, `pyPow`).  Elsewhere real arithmetic is total.
-/

noncomputable section

/-- 3D vector of reals, standing in for `mathutils.Vector`. -/
abbrev Vec3 : Type := Fin 3 → ℝ

/-- Euclidean length of a vector (`Vector.length`). -/
def vnorm (v : Vec3) : ℝ := Real.sqrt (v 0 ^ 2 + v 1 ^ 2 + v 2 ^ 2)

/-- Euclidean distance between two points. -/
def vdist (a b : Vec3) : ℝ := vnorm (a - b)

/-- `Vector.normalized()`: mathutils returns the zero vector for a
zero-length input instead of raising. -/
def normalized (v : Vec3) : Vec3 := if vnorm v = 0 then 0 else (1 / vnorm v) • v

/-- A bmesh vertex: its position and its deform-layer entry for the active
group index (`none` when `group_index` is absent from the layer). -/
structure Vert where
  co : Vec3
  dweight : Option ℝ

/-- The part of the bmesh the step reads and writes: the vertex list
(identity = list index) and the edge list (pairs of vertex indices). -/
structure BMesh where
  verts : List Vert
  edges : List (Nat × Nat)

/-- Placeholder vertex for out-of-range index reads (never reached on
well-formed meshes, where every edge endpoint is in range). -/
def defaultVert : Vert := ⟨0, none⟩

/-- Vertex record at index `i`. -/
def getVert (bm : BMesh) (i : Nat) : Vert := bm.verts.getD i defaultVert

/-- Weight read from a vertex record: the stored entry, or 0 when the
group index has no entry (source line 114). -/
def vertWeight (v : Vert) : ℝ :=
  match v.dweight with
  | some w => w
  | none => 0

/-- `get_vertex_weight` of the source (lines 111-114). -/
def get_vertex_weight (bm : BMesh) (i : Nat) : ℝ := vertWeight (getVert bm i)

/-- Position of vertex `i` (`vert.co`). -/
def getCo (bm : BMesh) (i : Nat) : Vec3 := (getVert bm i).co

/-- Overwrite the position of vertex `i`, keeping its weight entry. -/
def setCo (bm : BMesh) (i : Nat) (c : Vec3) : BMesh :=
  { bm with verts := bm.verts.set i { getVert bm i with co := c } }

/-- The one kind of error the step can raise: Python's
`ZeroDivisionError` (float division by zero, or `0.0 ** negative`). -/
inductive PyErr where
  | zeroDiv

/-- Python float division: raises `ZeroDivisionError` on a zero divisor. -/
def pyDiv (x y : ℝ) : Except PyErr ℝ :=
  if y = 0 then .error .zeroDiv else .ok (x / y)

/-- Python float `**`: raises `ZeroDivisionError` for `0.0 ** negative`;
otherwise modelled by the real power `Real.rpow`.  (For a negative base
with non-integral exponent Python produces a complex number, unreachable
here because vertex-group weights are non-negative.) -/
def pyPow (x y : ℝ) : Except PyErr ℝ :=
  if x = 0 ∧ y < 0 then .error .zeroDiv else .ok (x ^ y)

/-- The kd-tree snapshot (source lines 64-67): every vertex's position
with its index, taken before any position update. -/
def kd_points (bm : BMesh) : List (Vec3 × Nat) :=
  (List.range bm.verts.length).map (fun i => (getCo bm i, i))

/-- `KDTree.find_range`: all indexed points within `radius` of `c`,
reported with their distance from `c`. -/
def find_range (kd : List (Vec3 × Nat)) (c : Vec3) (radius : ℝ) :
    List (Vec3 × Nat × ℝ) :=
  kd.filterMap (fun q =>
    if vdist c q.1 ≤ radius then some (q.1, q.2, vdist c q.1) else none)

/-- `BMEdge.other_vert`: the other endpoint of `e`, or `none` when `i` is
not an endpoint. -/
def other_vert (e : Nat × Nat) (i : Nat) : Option Nat :=
  if e.1 = i then some e.2 else if e.2 = i then some e.1 else none

/-- `vert.link_edges`: the edges incident to vertex `i` (adjacency is
derived from the edge list). -/
def link_edges (bm : BMesh) (i : Nat) : List (Nat × Nat) :=
  bm.edges.filter (fun e => decide (e.1 = i ∨ e.2 = i))

/-- `calc_vert_attraction` (source lines 142-149): sum over incident
edges of `other.co - vert.co`, read from the current (live) mesh. -/
def calc_vert_attraction (bm : BMesh) (i : Nat) : Vec3 :=
  (link_edges bm i).foldl
    (fun acc e =>
      match other_vert e i with
      | some j => acc + (getCo bm j - getCo bm i)
      | none => acc)
    0

/-- `calc_vert_repulsion` (source lines 151-160): over the kd snapshot
within `radius * 2` of `c`, skipping the query vertex's own index,
accumulate `normalized(c - point) * exp(distance - radius)`. -/
def calc_vert_repulsion (c : Vec3) (idx : Nat) (kd : List (Vec3 × Nat))
    (radius : ℝ) : Vec3 :=
  (find_range kd c (radius * 2)).foldl
    (fun acc t =>
      if t.2.1 = idx then acc
      else acc + Real.exp (t.2.2 - radius) • normalized (c - t.1))
    0

/-- The per-step growth parameters of `grow_step`, plus the external
noise field `mathutils.noise.noise_vector`. -/
structure Params where
  seed : ℝ
  collision_radius : ℝ
  split_radius : ℝ
  dt : ℝ
  weight_decay : ℝ
  noise_scale : ℝ
  fac_attr : ℝ
  fac_rep : ℝ
  fac_noise : ℝ
  noiseFn : Vec3 → Vec3

/-- `seed_vector = Vector((0, 0, 1)) * seed` (source line 51). -/
def seedVector (p : Params) : Vec3 := p.seed • ![(0 : ℝ), 0, 1]

/-- The active vertex set (source lines 57-60): indices whose weight is
strictly positive, in mesh iteration order. -/
def active_verts (bm : BMesh) : List Nat :=
  (List.range bm.verts.length).filter
    (fun i => decide (0 < get_vertex_weight bm i))

/-- The edges collected alongside the active set (source lines 61-62):
every edge incident to at least one active vertex.  The source stores
them in a Python `set`; membership is what matters, modelled by a
filter over the edge list. -/
def collect_edges (bm : BMesh) : List (Nat × Nat) :=
  bm.edges.filter
    (fun e =>
      decide (0 < get_vertex_weight bm e.1)
        || decide (0 < get_vertex_weight bm e.2))

/-- One iteration of the force loop (source lines 70-83) for vertex `i`:
re-read the live weight, skip if it is zero, otherwise add
`force * dt * dt * weight` to the position.  Attraction and noise read
the live mesh; repulsion reads the kd snapshot. -/
def integrate_step (p : Params) (kd : List (Vec3 × Nat)) (bm : BMesh)
    (i : Nat) : BMesh :=
  if get_vertex_weight bm i = 0 then bm
  else
    setCo bm i (getCo bm i
      + (p.dt * p.dt * get_vertex_weight bm i) •
          (p.fac_attr • calc_vert_attraction bm i
           + p.fac_rep • calc_vert_repulsion (getCo bm i) i kd p.collision_radius
           + p.fac_noise • p.noiseFn (p.noise_scale • getCo bm i + seedVector p)))

/-- The whole force loop: fold `integrate_step` over the active set, with
the kd snapshot taken from the initial mesh. -/
def integrate_phase (p : Params) (bm : BMesh) : BMesh :=
  (active_verts bm).foldl (integrate_step p (kd_points bm)) bm

/-- The force loop truncated to the first `k` active vertices: the mesh
state at the moment the `k`-th active vertex is processed. -/
def integrateUpTo (p : Params) (bm : BMesh) (k : Nat) : BMesh :=
  ((active_verts bm).take k).foldl (integrate_step p (kd_points bm)) bm

/-- The weight-decay pass (source lines 86-89): for every vertex in mesh
order, read the weight, raise it to `weight_decay`, and store the result
as the vertex's entry. -/
def decay_verts (wd : ℝ) : List Vert → Except PyErr (List Vert)
  | [] => .ok []
  | v :: vs =>
    match pyPow (vertWeight v) wd with
    | .error er => .error er
    | .ok w =>
      match decay_verts wd vs with
      | .error er => .error er
      | .ok rest => .ok ({ v with dweight := some w } :: rest)

/-- `edge.calc_length()`: Euclidean distance of the edge's endpoints. -/
def calc_length (bm : BMesh) (e : Nat × Nat) : ℝ :=
  vdist (getCo bm e.1) (getCo bm e.2)

/-- `calc_avg_edge_weight` (source lines 133-140): mean endpoint weight
over a list of edges.  `grow_step` only calls it on singleton lists, so
the divisor is 2 and Python's division-by-zero on an empty list is
unreachable; real division is used. -/
def calc_avg_edge_weight (bm : BMesh) (es : List (Nat × Nat)) : ℝ :=
  (es.foldl
      (fun acc e => acc + get_vertex_weight bm e.1 + get_vertex_weight bm e.2)
      0)
    / (2 * es.length)

/-- The subdivision scan (source lines 92-99): per collected edge, skip
when the average endpoint weight is 0, otherwise include the edge iff
`(length / split_radius) > (1 / avg_weight)`.  The division by
`split_radius` is Python division and raises on a zero split radius. -/
def select_subdivide (bm : BMesh) (split_radius : ℝ) :
    List (Nat × Nat) → Except PyErr (List (Nat × Nat))
  | [] => .ok []
  | e :: es =>
    if calc_avg_edge_weight bm [e] = 0 then select_subdivide bm split_radius es
    else
      match pyDiv (calc_length bm e) split_radius with
      | .error er => .error er
      | .ok q1 =>
        match pyDiv 1 (calc_avg_edge_weight bm [e]) with
        | .error er => .error er
        | .ok q2 =>
          match select_subdivide bm split_radius es with
          | .error er => .error er
          | .ok rest => if q1 > q2 then .ok (e :: rest) else .ok rest

/-- Result of one step: the mesh as it stands after the force loop and
the weight-decay pass, and the list of edges the source hands to the
external `bmesh.ops.subdivide_edges` primitive. -/
structure StepResult where
  bm : BMesh
  subdivided : List (Nat × Nat)

/-- `grow_step` (source lines 37-109): collect the active set and its
incident edges, snapshot the kd-tree, run the force loop, decay every
weight, then scan the collected edges for subdivision. -/
def grow_step (p : Params) (bm : BMesh) : Except PyErr StepResult :=
  match decay_verts p.weight_decay (integrate_phase p bm).verts with
  | .error er => .error er
  | .ok vs2 =>
    match select_subdivide ⟨vs2, (integrate_phase p bm).edges⟩ p.split_radius
        (collect_edges bm) with
    | .error er => .error er
    | .ok subs => .ok ⟨⟨vs2, (integrate_phase p bm).edges⟩, subs⟩

/-- Zero noise field, used for concrete evaluations. -/
def zeroNoise : Vec3 → Vec3 := fun _ => 0

/-- Concrete parameters: split radius 1, decay exponent 1, everything
else (dt, coefficients, radii) zero, zero noise. -/
def pW : Params := ⟨0, 0, 1, 0, 1, 0, 0, 0, 0, zeroNoise⟩

/-- Concrete parameters identical to `pW` except for a zero split
radius. -/
def pE : Params := ⟨0, 0, 0, 0, 1, 0, 0, 0, 0, zeroNoise⟩

/-- Concrete one-vertex mesh whose vertex has no weight entry. -/
def bmW : BMesh := ⟨[⟨0, none⟩], []⟩

/-- Concrete one-vertex mesh with weight 1, no edges. -/
def bmA : BMesh := ⟨[⟨0, some 1⟩], []⟩

/-- Concrete two-vertex mesh, both weights 1, one edge. -/
def bmE : BMesh := ⟨[⟨0, some 1⟩, ⟨0, some 1⟩], [(0, 1)]⟩

/-- Expected step result for `pW` on `bmW`. -/
def rW : StepResult := ⟨⟨[⟨0, some 0⟩], []⟩, []⟩

/-- Expected step result for `pW` on `bmE`. -/
def rS : StepResult := ⟨⟨[⟨0, some 1⟩, ⟨0, some 1⟩], [(0, 1)]⟩, []⟩

/-! ## Basic vector lemmas -/

theorem vnorm_nonneg (v : Vec3) : 0 ≤ vnorm v := Real.sqrt_nonneg _

theorem vnorm_eq_zero_iff (v : Vec3) : vnorm v = 0 ↔ v = 0 := by
  unfold vnorm
  rw [Real.sqrt_eq_zero']
  constructor
  · intro h
    have e0 : v 0 = 0 := by nlinarith [sq_nonneg (v 0), sq_nonneg (v 1), sq_nonneg (v 2)]
    have e1 : v 1 = 0 := by nlinarith [sq_nonneg (v 0), sq_nonneg (v 1), sq_nonneg (v 2)]
    have e2 : v 2 = 0 := by nlinarith [sq_nonneg (v 0), sq_nonneg (v 1), sq_nonneg (v 2)]
    funext i
    fin_cases i <;> simp [e0, e1, e2]
  · intro h
    subst h
    norm_num

theorem vnorm_smul (c : ℝ) (v : Vec3) : vnorm (c • v) = |c| * vnorm v := by
  unfold vnorm
  simp only [Pi.smul_apply, smul_eq_mul]
  rw [show (c * v 0) ^ 2 + (c * v 1) ^ 2 + (c * v 2) ^ 2
      = c ^ 2 * (v 0 ^ 2 + v 1 ^ 2 + v 2 ^ 2) by ring]
  rw [Real.sqrt_mul (sq_nonneg c), Real.sqrt_sq_eq_abs]

theorem normalized_zero : normalized 0 = 0 := by
  unfold normalized
  rw [if_pos ((vnorm_eq_zero_iff 0).2 rfl)]

theorem vnorm_normalized {v : Vec3} (h : v ≠ 0) : vnorm (normalized v) = 1 := by
  have hn : vnorm v ≠ 0 := fun h0 => h ((vnorm_eq_zero_iff v).1 h0)
  have hpos : 0 < vnorm v := lt_of_le_of_ne (vnorm_nonneg v) (Ne.symm hn)
  unfold normalized
  rw [if_neg hn, vnorm_smul, abs_of_pos (by positivity), one_div,
    inv_mul_cancel₀ hn]

/-! ## Mesh access lemmas -/

theorem getVert_setCo_ne (bm : BMesh) {i j : Nat} (c : Vec3) (h : i ≠ j) :
    getVert (setCo bm i c) j = getVert bm j := by
  unfold getVert setCo
  simp [List.getD_eq_getElem?_getD, List.getElem?_set_ne h]

theorem getVert_setCo_self (bm : BMesh) {i : Nat} (c : Vec3)
    (h : i < bm.verts.length) :
    getVert (setCo bm i c) i = { getVert bm i with co := c } := by
  have hs : (setCo bm i c).verts[i]? = some { getVert bm i with co := c } := by
    unfold setCo
    exact List.getElem?_set_self h
  unfold getVert
  rw [List.getD_eq_getElem?_getD, hs, Option.getD_some]
  rfl

theorem dweight_setCo (bm : BMesh) (i : Nat) (c : Vec3) (j : Nat) :
    (getVert (setCo bm i c) j).dweight = (getVert bm j).dweight := by
  rcases eq_or_ne i j with rfl | h
  · by_cases hl : i < bm.verts.length
    · rw [getVert_setCo_self bm c hl]
    · unfold getVert setCo
      simp only [List.getD_eq_getElem?_getD, List.getElem?_set, if_neg hl]
      rw [List.getElem?_eq_none (le_of_not_lt hl)]
      simp
  · rw [getVert_setCo_ne bm c h]

theorem length_setCo (bm : BMesh) (i : Nat) (c : Vec3) :
    (setCo bm i c).verts.length = bm.verts.length := by
  simp [setCo]

theorem edges_setCo (bm : BMesh) (i : Nat) (c : Vec3) :
    (setCo bm i c).edges = bm.edges := rfl

theorem vertWeight_congr {v w : Vert} (h : v.dweight = w.dweight) :
    vertWeight v = vertWeight w := by
  unfold vertWeight
  rw [h]

theorem get_vertex_weight_out_of_range (bm : BMesh) {i : Nat}
    (h : bm.verts.length ≤ i) : get_vertex_weight bm i = 0 := by
  unfold get_vertex_weight getVert
  rw [List.getD_eq_default _ _ h]
  rfl

/-! ## Force-loop step lemmas -/

theorem integrate_step_edges (p : Params) (kd : List (Vec3 × Nat))
    (bm : BMesh) (i : Nat) : (integrate_step p kd bm i).edges = bm.edges := by
  unfold integrate_step
  split <;> rfl

theorem integrate_step_length (p : Params) (kd : List (Vec3 × Nat))
    (bm : BMesh) (i : Nat) :
    (integrate_step p kd bm i).verts.length = bm.verts.length := by
  unfold integrate_step
  split
  · rfl
  · exact length_setCo bm i _

theorem integrate_step_dweight (p : Params) (kd : List (Vec3 × Nat))
    (bm : BMesh) (i j : Nat) :
    (getVert (integrate_step p kd bm i) j).dweight = (getVert bm j).dweight := by
  unfold integrate_step
  split
  · rfl
  · exact dweight_setCo bm i _ j

theorem integrate_step_weight (p : Params) (kd : List (Vec3 × Nat))
    (bm : BMesh) (i j : Nat) :
    get_vertex_weight (integrate_step p kd bm i) j = get_vertex_weight bm j :=
  vertWeight_congr (integrate_step_dweight p kd bm i j)

theorem integrate_step_co_ne (p : Params) (kd : List (Vec3 × Nat))
    (bm : BMesh) {i j : Nat} (h : j ≠ i) :
    getCo (integrate_step p kd bm i) j = getCo bm j := by
  unfold integrate_step
  split
  · rfl
  · unfold getCo
    rw [getVert_setCo_ne bm _ (Ne.symm h)]

/-! ## Force-loop fold lemmas -/

theorem foldl_integrate_length (p : Params) (kd : List (Vec3 × Nat))
    (l : List Nat) (bm : BMesh) :
    ((l.foldl (integrate_step p kd) bm)).verts.length = bm.verts.length := by
  induction l generalizing bm with
  | nil => rfl
  | cons a l ih => rw [List.foldl_cons, ih, integrate_step_length]

theorem foldl_integrate_edges (p : Params) (kd : List (Vec3 × Nat))
    (l : List Nat) (bm : BMesh) :
    ((l.foldl (integrate_step p kd) bm)).edges = bm.edges := by
  induction l generalizing bm with
  | nil => rfl
  | cons a l ih => rw [List.foldl_cons, ih, integrate_step_edges]

theorem foldl_integrate_dweight (p : Params) (kd : List (Vec3 × Nat))
    (l : List Nat) (bm : BMesh) (j : Nat) :
    (getVert (l.foldl (integrate_step p kd) bm) j).dweight
      = (getVert bm j).dweight := by
  induction l generalizing bm with
  | nil => rfl
  | cons a l ih => rw [List.foldl_cons, ih, integrate_step_dweight]

theorem foldl_integrate_weight (p : Params) (kd : List (Vec3 × Nat))
    (l : List Nat) (bm : BMesh) (j : Nat) :
    get_vertex_weight (l.foldl (integrate_step p kd) bm) j
      = get_vertex_weight bm j :=
  vertWeight_congr (foldl_integrate_dweight p kd l bm j)

theorem foldl_integrate_co_notmem (p : Params) (kd : List (Vec3 × Nat))
    {l : List Nat} {j : Nat} (h : j ∉ l) (bm : BMesh) :
    getCo (l.foldl (integrate_step p kd) bm) j = getCo bm j := by
  induction l generalizing bm with
  | nil => rfl
  | cons a l ih =>
    have hne : j ≠ a := fun he => h (by rw [he]; exact List.mem_cons_self a l)
    rw [List.foldl_cons, ih (fun hm => h (List.mem_cons_of_mem a hm)),
      integrate_step_co_ne p kd bm hne]

/-! ## Active set lemmas -/

theorem active_verts_nodup (bm : BMesh) : (active_verts bm).Nodup :=
  List.Nodup.filter _ (List.nodup_range _)

theorem mem_active_verts {bm : BMesh} {i : Nat} :
    i ∈ active_verts bm ↔ i < bm.verts.length ∧ 0 < get_vertex_weight bm i := by
  unfold active_verts
  simp [List.mem_filter, List.mem_range]

theorem not_mem_active_of_weight_zero {bm : BMesh} {i : Nat}
    (h : get_vertex_weight bm i = 0) : i ∉ active_verts bm := by
  intro hm
  exact absurd (mem_active_verts.1 hm).2 (by rw [h]; exact lt_irrefl 0)

theorem active_get_not_mem_drop (bm : BMesh) (k : Nat)
    (hk : k < (active_verts bm).length) :
    (active_verts bm).get ⟨k, hk⟩ ∉ (active_verts bm).drop (k + 1) := by
  intro hmem
  have hnd : ((active_verts bm).take (k + 1)
      ++ (active_verts bm).drop (k + 1)).Nodup := by
    rw [List.take_append_drop]
    exact active_verts_nodup bm
  rw [List.nodup_append] at hnd
  have hin : (active_verts bm).get ⟨k, hk⟩ ∈ (active_verts bm).take (k + 1) := by
    rw [← List.take_concat_get _ _ hk, List.concat_eq_append, List.get_eq_getElem]
    exact List.mem_append_right _ (List.mem_singleton.2 rfl)
  exact hnd.2.2 hin hmem

/-! ## Force-loop characterization -/

theorem integrate_phase_decomp (p : Params) (bm : BMesh) (k : Nat)
    (hk : k < (active_verts bm).length) :
    integrate_phase p bm =
      ((active_verts bm).drop (k + 1)).foldl (integrate_step p (kd_points bm))
        (integrate_step p (kd_points bm) (integrateUpTo p bm k)
          ((active_verts bm).get ⟨k, hk⟩)) := by
  unfold integrate_phase integrateUpTo
  conv_lhs => rw [← List.take_append_drop k (active_verts bm)]
  rw [List.foldl_append, List.drop_eq_getElem_cons hk, List.foldl_cons,
    List.get_eq_getElem]

theorem integrate_phase_co_active (p : Params) (bm : BMesh) (k : Nat)
    (hk : k < (active_verts bm).length) :
    getCo (integrate_phase p bm) ((active_verts bm).get ⟨k, hk⟩)
      = getCo (integrate_step p (kd_points bm) (integrateUpTo p bm k)
          ((active_verts bm).get ⟨k, hk⟩)) ((active_verts bm).get ⟨k, hk⟩) := by
  rw [integrate_phase_decomp p bm k hk]
  exact foldl_integrate_co_notmem p _ (active_get_not_mem_drop bm k hk) _

theorem integrate_step_co_self (p : Params) (kd : List (Vec3 × Nat))
    (st : BMesh) {v : Nat} (hw : get_vertex_weight st v ≠ 0)
    (hv : v < st.verts.length) :
    getCo (integrate_step p kd st v) v
      = getCo st v
        + (p.dt * p.dt * get_vertex_weight st v) •
            (p.fac_attr • calc_vert_attraction st v
             + p.fac_rep • calc_vert_repulsion (getCo st v) v kd p.collision_radius
             + p.fac_noise • p.noiseFn (p.noise_scale • getCo st v + seedVector p)) := by
  unfold integrate_step
  rw [if_neg hw]
  unfold getCo
  rw [getVert_setCo_self st _ hv]

theorem integrateUpTo_weight (p : Params) (bm : BMesh) (k j : Nat) :
    get_vertex_weight (integrateUpTo p bm k) j = get_vertex_weight bm j :=
  foldl_integrate_weight p _ _ bm j

theorem integrateUpTo_length (p : Params) (bm : BMesh) (k : Nat) :
    (integrateUpTo p bm k).verts.length = bm.verts.length :=
  foldl_integrate_length p _ _ bm

theorem integrate_phase_weight (p : Params) (bm : BMesh) (j : Nat) :
    get_vertex_weight (integrate_phase p bm) j = get_vertex_weight bm j :=
  foldl_integrate_weight p _ _ bm j

theorem integrate_phase_length (p : Params) (bm : BMesh) :
    (integrate_phase p bm).verts.length = bm.verts.length :=
  foldl_integrate_length p _ _ bm

theorem integrate_phase_edges (p : Params) (bm : BMesh) :
    (integrate_phase p bm).edges = bm.edges :=
  foldl_integrate_edges p _ _ bm

/-! ## Division and power lemmas -/

theorem pyDiv_ok {x y q : ℝ} (h : pyDiv x y = .ok q) : y ≠ 0 ∧ q = x / y := by
  unfold pyDiv at h
  split at h
  · exact Except.noConfusion h
  · injection h with h
    exact ⟨by assumption, h.symm⟩

theorem pyDiv_zero (x : ℝ) : pyDiv x 0 = .error .zeroDiv := by
  unfold pyDiv
  rw [if_pos rfl]

theorem pyDiv_of_ne {y : ℝ} (x : ℝ) (h : y ≠ 0) : pyDiv x y = .ok (x / y) := by
  unfold pyDiv
  rw [if_neg h]

theorem pyPow_ok {x y w : ℝ} (h : pyPow x y = .ok w) : w = x ^ y := by
  unfold pyPow at h
  split at h
  · exact Except.noConfusion h
  · injection h with h
    exact h.symm

theorem pyPow_of_nonneg (x : ℝ) {y : ℝ} (h : 0 ≤ y) :
    pyPow x y = .ok (x ^ y) := by
  unfold pyPow
  rw [if_neg (fun hc => absurd h (not_le.2 hc.2))]

/-! ## Decay-pass lemmas -/

theorem decay_verts_ok {wd : ℝ} : ∀ {vs vs' : List Vert},
    decay_verts wd vs = .ok vs' →
      vs' = vs.map (fun v => { v with dweight := some (vertWeight v ^ wd) })
  | [], vs', h => by
    injection h with h
    rw [← h]
    rfl
  | v :: vs, vs', h => by
    unfold decay_verts at h
    cases hp : pyPow (vertWeight v) wd with
    | error er =>
      rw [hp] at h
      exact Except.noConfusion h
    | ok w =>
      rw [hp] at h
      cases hd : decay_verts wd vs with
      | error er =>
        rw [hd] at h
        exact Except.noConfusion h
      | ok rest =>
        rw [hd] at h
        injection h with h
        rw [← h, List.map_cons, ← decay_verts_ok hd, pyPow_ok hp]

theorem decay_verts_of_nonneg {wd : ℝ} (h : 0 ≤ wd) : ∀ vs : List Vert,
    decay_verts wd vs
      = .ok (vs.map (fun v => { v with dweight := some (vertWeight v ^ wd) }))
  | [] => rfl
  | v :: vs => by
    unfold decay_verts
    rw [pyPow_of_nonneg _ h, decay_verts_of_nonneg h vs]
    rfl

/-! ## Subdivision-scan lemmas -/

theorem select_subdivide_sound {bm : BMesh} {s : ℝ} :
    ∀ {es out : List (Nat × Nat)}, select_subdivide bm s es = .ok out →
      ∀ e : Nat × Nat,
        e ∈ out ↔ e ∈ es ∧ calc_avg_edge_weight bm [e] ≠ 0
          ∧ calc_length bm e / s > 1 / calc_avg_edge_weight bm [e]
  | [], out, h => by
    injection h with h
    rw [← h]
    simp
  | a :: es, out, h => by
    unfold select_subdivide at h
    by_cases ha : calc_avg_edge_weight bm [a] = 0
    · rw [if_pos ha] at h
      intro e
      have hiff := select_subdivide_sound h e
      constructor
      · intro hm
        exact ⟨List.mem_cons_of_mem _ (hiff.1 hm).1, (hiff.1 hm).2⟩
      · rintro ⟨hm, h2, h3⟩
        rcases List.mem_cons.1 hm with rfl | hm'
        · exact absurd ha h2
        · exact hiff.2 ⟨hm', h2, h3⟩
    · rw [if_neg ha] at h
      cases h1 : pyDiv (calc_length bm a) s with
      | error er =>
        rw [h1] at h
        exact Except.noConfusion h
      | ok q1 =>
        rw [h1] at h
        obtain ⟨hs, hq1⟩ := pyDiv_ok h1
        rw [pyDiv_of_ne 1 ha] at h
        cases h3 : select_subdivide bm s es with
        | error er =>
          rw [h3] at h
          exact Except.noConfusion h
        | ok rest =>
          rw [h3] at h
          replace h : (if q1 > 1 / calc_avg_edge_weight bm [a] then
              Except.ok (a :: rest) else Except.ok rest) = Except.ok out := h
          intro e
          have hiff := select_subdivide_sound h3 e
          by_cases hgt : q1 > 1 / calc_avg_edge_weight bm [a]
          · rw [if_pos hgt] at h
            injection h with h
            rw [← h]
            constructor
            · intro hm
              rcases List.mem_cons.1 hm with rfl | hm'
              · exact ⟨List.mem_cons_self _ _, ha, hq1 ▸ hgt⟩
              · exact ⟨List.mem_cons_of_mem _ (hiff.1 hm').1, (hiff.1 hm').2⟩
            · rintro ⟨hm, h2, h4⟩
              rcases List.mem_cons.1 hm with rfl | hm'
              · exact List.mem_cons_self _ _
              · exact List.mem_cons_of_mem _ (hiff.2 ⟨hm', h2, h4⟩)
          · rw [if_neg hgt] at h
            injection h with h
            rw [← h]
            constructor
            · intro hm
              exact ⟨List.mem_cons_of_mem _ (hiff.1 hm).1, (hiff.1 hm).2⟩
            · rintro ⟨hm, h2, h4⟩
              rcases List.mem_cons.1 hm with rfl | hm'
              · exact absurd (hq1 ▸ h4) hgt
              · exact hiff.2 ⟨hm', h2, h4⟩

theorem select_subdivide_total (bm : BMesh) {s : ℝ} (hs : s ≠ 0) :
    ∀ es : List (Nat × Nat), ∃ out, select_subdivide bm s es = .ok out
  | [] => ⟨[], rfl⟩
  | a :: es => by
    obtain ⟨out, hout⟩ := select_subdivide_total bm hs es
    unfold select_subdivide
    by_cases ha : calc_avg_edge_weight bm [a] = 0
    · rw [if_pos ha]
      exact ⟨out, hout⟩
    · rw [if_neg ha, pyDiv_of_ne _ hs, pyDiv_of_ne 1 ha, hout]
      show ∃ out2, (if calc_length bm a / s > 1 / calc_avg_edge_weight bm [a]
          then Except.ok (a :: out) else Except.ok out) = Except.ok out2
      by_cases hgt : calc_length bm a / s > 1 / calc_avg_edge_weight bm [a]
      · rw [if_pos hgt]
        exact ⟨a :: out, rfl⟩
      · rw [if_neg hgt]
        exact ⟨out, rfl⟩

/-! ## Step decomposition -/

theorem grow_step_ok_elim {p : Params} {bm : BMesh} {r : StepResult}
    (h : grow_step p bm = .ok r) :
    ∃ vs2 subs,
      decay_verts p.weight_decay (integrate_phase p bm).verts = .ok vs2
      ∧ select_subdivide ⟨vs2, (integrate_phase p bm).edges⟩ p.split_radius
          (collect_edges bm) = .ok subs
      ∧ r = ⟨⟨vs2, (integrate_phase p bm).edges⟩, subs⟩ := by
  unfold grow_step at h
  cases hd : decay_verts p.weight_decay (integrate_phase p bm).verts with
  | error er =>
    rw [hd] at h
    exact Except.noConfusion h
  | ok vs2 =>
    rw [hd] at h
    replace h : (match select_subdivide ⟨vs2, (integrate_phase p bm).edges⟩
          p.split_radius (collect_edges bm) with
        | .error er => (.error er : Except PyErr StepResult)
        | .ok subs => .ok ⟨⟨vs2, (integrate_phase p bm).edges⟩, subs⟩)
        = .ok r := h
    cases hs : select_subdivide ⟨vs2, (integrate_phase p bm).edges⟩
        p.split_radius (collect_edges bm) with
    | error er =>
      rw [hs] at h
      exact Except.noConfusion h
    | ok subs =>
      rw [hs] at h
      injection h with h
      exact ⟨vs2, subs, rfl, hs, h.symm⟩

theorem grow_step_ok_intro {p : Params} {bm : BMesh} {vs2 : List Vert}
    {subs : List (Nat × Nat)}
    (hd : decay_verts p.weight_decay (integrate_phase p bm).verts = .ok vs2)
    (hs : select_subdivide ⟨vs2, (integrate_phase p bm).edges⟩ p.split_radius
        (collect_edges bm) = .ok subs) :
    grow_step p bm = .ok ⟨⟨vs2, (integrate_phase p bm).edges⟩, subs⟩ := by
  unfold grow_step
  rw [hd]
  show (match select_subdivide ⟨vs2, (integrate_phase p bm).edges⟩
        p.split_radius (collect_edges bm) with
      | .error er => (.error er : Except PyErr StepResult)
      | .ok subs => .ok ⟨⟨vs2, (integrate_phase p bm).edges⟩, subs⟩)
    = .ok ⟨⟨vs2, (integrate_phase p bm).edges⟩, subs⟩
  rw [hs]

/-! ## Decayed-mesh access lemmas -/

theorem vertWeight_eq_of_dweight {v : Vert} {x : ℝ} (h : v.dweight = some x) :
    vertWeight v = x := by
  unfold vertWeight
  rw [h]

theorem get_vertex_weight_map_decay (l : List Vert) (wd : ℝ) {i : Nat}
    (hi : i < l.length) :
    vertWeight ((l.map (fun v => { v with dweight := some (vertWeight v ^ wd) })).getD
        i defaultVert)
      = vertWeight (l.getD i defaultVert) ^ wd := by
  rw [List.getD_eq_getElem?_getD, List.getD_eq_getElem?_getD, List.getElem?_map,
    List.getElem?_eq_getElem hi]
  rfl

theorem dweight_map_decay (l : List Vert) (wd : ℝ) {i : Nat}
    (hi : i < l.length) :
    ((l.map (fun v => { v with dweight := some (vertWeight v ^ wd) })).getD
        i defaultVert).dweight
      = some (vertWeight (l.getD i defaultVert) ^ wd) := by
  rw [List.getD_eq_getElem?_getD, List.getD_eq_getElem?_getD, List.getElem?_map,
    List.getElem?_eq_getElem hi]
  rfl

theorem co_map_decay (l : List Vert) (wd : ℝ) (i : Nat) :
    ((l.map (fun v => { v with dweight := some (vertWeight v ^ wd) })).getD
        i defaultVert).co
      = (l.getD i defaultVert).co := by
  rw [List.getD_eq_getElem?_getD, List.getD_eq_getElem?_getD, List.getElem?_map]
  cases h : l[i]? with
  | none => rfl
  | some v => rfl

theorem get_vertex_weight_decayed {p : Params} {bm : BMesh} {vs2 : List Vert}
    (hd : decay_verts p.weight_decay (integrate_phase p bm).verts = .ok vs2)
    {i : Nat} (hi : i < bm.verts.length) :
    get_vertex_weight (⟨vs2, (integrate_phase p bm).edges⟩ : BMesh) i
      = get_vertex_weight bm i ^ p.weight_decay := by
  have hl : i < (integrate_phase p bm).verts.length := by
    rw [integrate_phase_length]
    exact hi
  unfold get_vertex_weight getVert
  rw [decay_verts_ok hd]
  show vertWeight (((integrate_phase p bm).verts.map _).getD i defaultVert) = _
  rw [get_vertex_weight_map_decay _ _ hl]
  rw [show vertWeight ((integrate_phase p bm).verts.getD i defaultVert)
      = get_vertex_weight (integrate_phase p bm) i from rfl,
    integrate_phase_weight]
  rfl

theorem dweight_decayed {p : Params} {bm : BMesh} {vs2 : List Vert}
    (hd : decay_verts p.weight_decay (integrate_phase p bm).verts = .ok vs2)
    {i : Nat} (hi : i < bm.verts.length) :
    (getVert (⟨vs2, (integrate_phase p bm).edges⟩ : BMesh) i).dweight
      = some (get_vertex_weight bm i ^ p.weight_decay) := by
  have hl : i < (integrate_phase p bm).verts.length := by
    rw [integrate_phase_length]
    exact hi
  unfold getVert
  rw [decay_verts_ok hd]
  show ((((integrate_phase p bm).verts.map _).getD i defaultVert)).dweight = _
  rw [dweight_map_decay _ _ hl]
  rw [show vertWeight ((integrate_phase p bm).verts.getD i defaultVert)
      = get_vertex_weight (integrate_phase p bm) i from rfl,
    integrate_phase_weight]

theorem getCo_decayed {p : Params} {bm : BMesh} {vs2 : List Vert}
    (hd : decay_verts p.weight_decay (integrate_phase p bm).verts = .ok vs2)
    (j : Nat) :
    getCo (⟨vs2, (integrate_phase p bm).edges⟩ : BMesh) j
      = getCo (integrate_phase p bm) j := by
  unfold getCo getVert
  rw [decay_verts_ok hd]
  exact co_map_decay _ _ j

/-! ## Average-weight lemmas -/

theorem calc_avg_single (bm : BMesh) (e : Nat × Nat) :
    calc_avg_edge_weight bm [e]
      = (get_vertex_weight bm e.1 + get_vertex_weight bm e.2) / 2 := by
  unfold calc_avg_edge_weight
  norm_num

/-! ## Repulsion-sum lemmas -/

theorem foldl_skip_add (idx : Nat) (g : Vec3 × Nat × ℝ → Vec3) :
    ∀ (l : List (Vec3 × Nat × ℝ)) (acc : Vec3),
      l.foldl (fun a t => if t.2.1 = idx then a else a + g t) acc
        = acc + ((l.filter (fun t => decide (t.2.1 ≠ idx))).map g).sum
  | [], acc => by simp
  | t :: l, acc => by
    rw [List.foldl_cons, List.filter_cons]
    by_cases h : t.2.1 = idx
    · rw [if_pos h, foldl_skip_add idx g l acc]
      simp [h]
    · rw [if_neg h, foldl_skip_add idx g l (acc + g t)]
      simp [h, add_assoc]

theorem find_range_cons (q : Vec3 × Nat) (kd : List (Vec3 × Nat)) (c : Vec3)
    (radius : ℝ) :
    find_range (q :: kd) c radius
      = if vdist c q.1 ≤ radius
          then (q.1, q.2, vdist c q.1) :: find_range kd c radius
          else find_range kd c radius := by
  unfold find_range
  rw [List.filterMap_cons]
  by_cases h : vdist c q.1 ≤ radius
  · rw [if_pos h, if_pos h]
  · rw [if_neg h, if_neg h]

theorem find_range_filter_map (c : Vec3) (idx : Nat) (r : ℝ) :
    ∀ kd : List (Vec3 × Nat),
      ((find_range kd c (r * 2)).filter (fun t => decide (t.2.1 ≠ idx))).map
          (fun t => Real.exp (t.2.2 - r) • normalized (c - t.1))
        = ((kd.filter (fun q => decide (vdist c q.1 ≤ 2 * r ∧ q.2 ≠ idx))).map
            (fun q => Real.exp (vdist c q.1 - r) • normalized (c - q.1)))
  | [] => rfl
  | q :: kd => by
    have ih := find_range_filter_map c idx r kd
    rw [find_range_cons, List.filter_cons]
    by_cases h1 : vdist c q.1 ≤ r * 2
    · rw [if_pos h1, List.filter_cons]
      by_cases h2 : q.2 = idx
      · rw [if_neg (show ¬(decide ((q.1, q.2, vdist c q.1).2.1 ≠ idx) = true)
            from by simp [h2])]
        rw [if_neg (show ¬(decide (vdist c q.1 ≤ 2 * r ∧ q.2 ≠ idx) = true)
            from by simp [h2])]
        exact ih
      · rw [if_pos (show decide ((q.1, q.2, vdist c q.1).2.1 ≠ idx) = true
            from by simp [h2])]
        rw [if_pos (show decide (vdist c q.1 ≤ 2 * r ∧ q.2 ≠ idx) = true
            from by simp [h2]; linarith)]
        rw [List.map_cons, List.map_cons, ih]
    · rw [if_neg h1]
      rw [if_neg (show ¬(decide (vdist c q.1 ≤ 2 * r ∧ q.2 ≠ idx) = true)
          from by simp; intro hle; exact absurd (by linarith : vdist c q.1 ≤ r * 2) h1)]
      exact ih

/-- C4: for an active vertex at `c` with identity `idx`, the repulsion
term is the sum, over every indexed point within `2 * collisionRadius`
of `c` whose vertex identity differs from `idx` (self excluded by
identity, not by distance), of
`normalize(c - point) * exp(distance - collisionRadius)`; and any such
point at distance exactly `collisionRadius` (with `collisionRadius`
positive) contributes a vector of unit magnitude. -/
theorem repulsion_spec (c : Vec3) (idx : Nat) (kd : List (Vec3 × Nat)) (r : ℝ) :
    calc_vert_repulsion c idx kd r
      = ((kd.filter (fun q => decide (vdist c q.1 ≤ 2 * r ∧ q.2 ≠ idx))).map
          (fun q => Real.exp (vdist c q.1 - r) • normalized (c - q.1))).sum
    ∧ ∀ q ∈ kd, q.2 ≠ idx → vdist c q.1 = r → 0 < r →
        vnorm (Real.exp (vdist c q.1 - r) • normalized (c - q.1)) = 1 := by
  constructor
  · unfold calc_vert_repulsion
    rw [foldl_skip_add idx _ _ 0, zero_add, find_range_filter_map]
  · intro q _ _ hdist hr
    have hne : c - q.1 ≠ 0 := by
      intro h0
      have : vdist c q.1 = 0 := by
        unfold vdist
        rw [h0]
        exact (vnorm_eq_zero_iff 0).2 rfl
      rw [hdist] at this
      exact absurd this (ne_of_gt hr)
    rw [hdist, sub_self, Real.exp_zero, vnorm_smul, abs_one, one_mul]
    exact vnorm_normalized hne

/-- Witness for C4 at a concrete input: one indexed point at distance 1
from the query position, collision radius 1. -/
theorem repulsion_spec_witness :
    calc_vert_repulsion 0 0 [(![1, 0, 0], 5)] 1
      = (([((![1, 0, 0] : Vec3), 5)].filter
            (fun q => decide (vdist 0 q.1 ≤ 2 * 1 ∧ q.2 ≠ 0))).map
          (fun q => Real.exp (vdist 0 q.1 - 1) • normalized (0 - q.1))).sum
    ∧ (5 : Nat) ≠ 0 ∧ vdist 0 ![1, 0, 0] = 1 ∧ (0 : ℝ) < 1
    ∧ vnorm (Real.exp (vdist 0 ![1, 0, 0] - 1) • normalized (0 - ![1, 0, 0])) = 1 := by
  have hd : vdist 0 ![1, 0, 0] = 1 := by
    unfold vdist vnorm
    norm_num [Matrix.cons_val_zero, Matrix.cons_val_one, Matrix.head_cons]
  refine ⟨(repulsion_spec 0 0 [(![1, 0, 0], 5)] 1).1, by norm_num, hd, one_pos, ?_⟩
  exact (repulsion_spec 0 0 [(![1, 0, 0], 5)] 1).2 (![1, 0, 0], 5)
    (List.mem_singleton.2 rfl) (by norm_num) hd one_pos

/-- C8: an indexed point with a different vertex identity but a position
exactly coincident with the query position contributes the zero vector
to the repulsion sum (mathutils normalizes the zero vector to the zero
vector, so the degenerate case is a defined zero contribution, not an
error), and dropping such a point leaves the repulsion unchanged. -/
theorem repulsion_coincident (c : Vec3) (idx j : Nat) (kd : List (Vec3 × Nat))
    (r : ℝ) (hne : j ≠ idx) (hr : 0 ≤ r) :
    Real.exp (vdist c c - r) • normalized (c - c) = 0
    ∧ calc_vert_repulsion c idx ((c, j) :: kd) r
        = calc_vert_repulsion c idx kd r := by
  have hzero : normalized (c - c) = 0 := by
    rw [sub_self, normalized_zero]
  have hd : vdist c c = 0 := by
    unfold vdist
    rw [sub_self]
    exact (vnorm_eq_zero_iff 0).2 rfl
  refine ⟨by rw [hzero, smul_zero], ?_⟩
  unfold calc_vert_repulsion
  rw [find_range_cons, if_pos (show vdist c (c, j).1 ≤ r * 2 from by
    rw [show (c, j).1 = c from rfl, hd]; linarith)]
  simp only [List.foldl_cons]
  rw [if_neg hne, hzero, smul_zero, add_zero]

/-- C3: for a single edge with endpoints `a`, `b` of uniform endpoint
weight `W ≥ 0` and a split radius `s > 0`, the subdivision scan selects
the edge iff `length * W > s`; at the boundary `length * W = s` no
subdivision occurs; for `W > 0` the source's form
`(length / splitRadius) > (1 / averageWeight)` is equivalent to
`length * W > splitRadius`; and an edge of average weight 0 is skipped —
the scan returns an empty selection without error for any split
radius. -/
theorem subdivide_single_edge (a b : Vec3) (W s : ℝ) (hW : 0 ≤ W)
    (hs : 0 < s) :
    (∃ out, select_subdivide ⟨[⟨a, some W⟩, ⟨b, some W⟩], [(0, 1)]⟩ s [(0, 1)]
        = .ok out ∧ ((0, 1) ∈ out ↔ vdist a b * W > s))
    ∧ (vdist a b * W = s → ∀ out,
        select_subdivide ⟨[⟨a, some W⟩, ⟨b, some W⟩], [(0, 1)]⟩ s [(0, 1)]
          = .ok out → (0, 1) ∉ out)
    ∧ (0 < W → (vdist a b / s > 1 / W ↔ vdist a b * W > s))
    ∧ (W = 0 → ∀ s2,
        select_subdivide ⟨[⟨a, some W⟩, ⟨b, some W⟩], [(0, 1)]⟩ s2 [(0, 1)]
          = .ok []) := by
  have havg : calc_avg_edge_weight
      (⟨[⟨a, some W⟩, ⟨b, some W⟩], [(0, 1)]⟩ : BMesh) [(0, 1)] = W := by
    rw [calc_avg_single]
    rw [show get_vertex_weight
        (⟨[⟨a, some W⟩, ⟨b, some W⟩], [(0, 1)]⟩ : BMesh) (0, 1).1 = W from rfl]
    rw [show get_vertex_weight
        (⟨[⟨a, some W⟩, ⟨b, some W⟩], [(0, 1)]⟩ : BMesh) (0, 1).2 = W from rfl]
    ring
  have hlen : calc_length
      (⟨[⟨a, some W⟩, ⟨b, some W⟩], [(0, 1)]⟩ : BMesh) (0, 1) = vdist a b := rfl
  have hiff0 : ∀ out2,
      select_subdivide ⟨[⟨a, some W⟩, ⟨b, some W⟩], [(0, 1)]⟩ s [(0, 1)]
        = .ok out2 → ((0, 1) ∈ out2 ↔ vdist a b * W > s) := by
    intro out2 h2
    rw [select_subdivide_sound h2 (0, 1), havg, hlen]
    rcases eq_or_lt_of_le hW with h0 | hpos
    · rw [← h0]
      constructor
      · rintro ⟨-, hfalse, -⟩
        exact absurd rfl hfalse
      · intro hgt
        rw [mul_zero] at hgt
        exact absurd hgt (asymm hs)
    · have hW0 : W ≠ 0 := ne_of_gt hpos
      constructor
      · rintro ⟨-, -, hgt⟩
        rw [gt_iff_lt, div_lt_div_iff₀ hpos hs, one_mul] at hgt
        exact hgt
      · intro hgt
        refine ⟨List.mem_singleton.2 rfl, hW0, ?_⟩
        rw [gt_iff_lt, div_lt_div_iff₀ hpos hs, one_mul]
        exact hgt
  obtain ⟨out, hout⟩ := select_subdivide_total
    (⟨[⟨a, some W⟩, ⟨b, some W⟩], [(0, 1)]⟩ : BMesh) (ne_of_gt hs) [(0, 1)]
  refine ⟨⟨out, hout, hiff0 out hout⟩, ?_, ?_, ?_⟩
  · intro heq out2 h2 hmem
    have hlt := (hiff0 out2 h2).1 hmem
    rw [heq] at hlt
    exact absurd hlt (lt_irrefl s)
  · intro hpos
    rw [gt_iff_lt, gt_iff_lt, div_lt_div_iff₀ hpos hs, one_mul]
  · intro h0 s2
    have havg0 : calc_avg_edge_weight
        (⟨[⟨a, some W⟩, ⟨b, some W⟩], [(0, 1)]⟩ : BMesh) [(0, 1)] = 0 := by
      rw [havg, h0]
    unfold select_subdivide
    rw [if_pos havg0]
    rfl

/-- Witness for C3 at a concrete input: coincident endpoints, uniform
weight 1, split radius 1. -/
theorem subdivide_single_edge_witness :
    (0 : ℝ) ≤ 1 ∧ (0 : ℝ) < 1
    ∧ ((∃ out,
          select_subdivide ⟨[⟨(0 : Vec3), some 1⟩, ⟨(0 : Vec3), some 1⟩],
            [(0, 1)]⟩ 1 [(0, 1)] = .ok out
          ∧ ((0, 1) ∈ out ↔ vdist (0 : Vec3) 0 * 1 > 1))
       ∧ (vdist (0 : Vec3) 0 * 1 = 1 → ∀ out,
            select_subdivide ⟨[⟨(0 : Vec3), some 1⟩, ⟨(0 : Vec3), some 1⟩],
              [(0, 1)]⟩ 1 [(0, 1)] = .ok out → (0, 1) ∉ out)
       ∧ ((0 : ℝ) < 1 → (vdist (0 : Vec3) 0 / 1 > 1 / 1
            ↔ vdist (0 : Vec3) 0 * 1 > 1))
       ∧ ((1 : ℝ) = 0 → ∀ s2,
            select_subdivide ⟨[⟨(0 : Vec3), some 1⟩, ⟨(0 : Vec3), some 1⟩],
              [(0, 1)]⟩ s2 [(0, 1)] = .ok [])) :=
  ⟨by norm_num, by norm_num,
    subdivide_single_edge 0 0 1 1 (by norm_num) (by norm_num)⟩

/-- Witness for C8 at a concrete input: identity 1 versus query identity
0, radius 0, empty remaining index. -/
theorem repulsion_coincident_witness :
    (1 : Nat) ≠ 0 ∧ (0 : ℝ) ≤ 0
    ∧ (Real.exp (vdist 0 0 - 0) • normalized ((0 : Vec3) - 0) = 0
       ∧ calc_vert_repulsion 0 0 [((0 : Vec3), 1)] 0
           = calc_vert_repulsion 0 0 [] 0) :=
  ⟨Nat.one_ne_zero, le_refl 0,
    repulsion_coincident 0 0 1 [] 0 Nat.one_ne_zero (le_refl 0)⟩

/-! ## Concrete evaluation: `pW` on `bmW` -/

theorem active_verts_bmW : active_verts bmW = [] := by
  unfold active_verts
  rw [show bmW.verts.length = 1 from rfl,
    show List.range 1 = [0] from by decide, List.filter_cons]
  rw [show decide (0 < get_vertex_weight bmW 0) = false from by
    rw [show get_vertex_weight bmW 0 = 0 from rfl]
    simp]
  simp

theorem integrate_phase_pW_bmW : integrate_phase pW bmW = bmW := by
  unfold integrate_phase
  rw [active_verts_bmW]
  rfl

theorem decay_pW_bmW :
    decay_verts pW.weight_decay (integrate_phase pW bmW).verts
      = .ok [⟨0, some 0⟩] := by
  rw [integrate_phase_pW_bmW, show pW.weight_decay = (1 : ℝ) from rfl,
    decay_verts_of_nonneg (by norm_num) bmW.verts]
  simp [bmW, vertWeight, Real.rpow_one]

theorem grow_step_pW_bmW : grow_step pW bmW = .ok rW := by
  have hsel : select_subdivide ⟨[⟨0, some 0⟩], (integrate_phase pW bmW).edges⟩
      pW.split_radius (collect_edges bmW) = .ok [] := by
    rw [show collect_edges bmW = [] from rfl]
    rfl
  rw [grow_step_ok_intro decay_pW_bmW hsel, integrate_phase_pW_bmW]
  rfl

/-- C2: whenever a step succeeds, every vertex existing at step start has
its weight raised to the `weightDecayExponent` power — independently of
any position change and of whether the vertex was active. -/
theorem step_weight_decay (p : Params) (bm : BMesh) (r : StepResult)
    (h : grow_step p bm = .ok r) (i : Nat) (hi : i < bm.verts.length) :
    get_vertex_weight r.bm i = get_vertex_weight bm i ^ p.weight_decay := by
  obtain ⟨vs2, subs, hd, hs, hrr⟩ := grow_step_ok_elim h
  subst hrr
  exact get_vertex_weight_decayed hd hi

/-- Witness for C2 on the concrete one-vertex mesh. -/
theorem step_weight_decay_witness :
    grow_step pW bmW = .ok rW ∧ 0 < bmW.verts.length
    ∧ get_vertex_weight rW.bm 0 = get_vertex_weight bmW 0 ^ pW.weight_decay :=
  ⟨grow_step_pW_bmW, by simp [bmW],
    step_weight_decay pW bmW rW grow_step_pW_bmW 0 (by simp [bmW])⟩

/-- C10: after a successful step every vertex has an explicit stored
weight entry for the active group index; a vertex that previously had no
entry (read as weight 0) gains the explicit entry `some 0` for any
positive decay exponent, with its numeric weight unchanged. -/
theorem step_weight_entry (p : Params) (bm : BMesh) (r : StepResult)
    (h : grow_step p bm = .ok r) (i : Nat) (hi : i < bm.verts.length) :
    r.bm.verts.length = bm.verts.length
    ∧ (getVert r.bm i).dweight = some (get_vertex_weight bm i ^ p.weight_decay)
    ∧ ((getVert bm i).dweight = none → 0 < p.weight_decay →
        (getVert r.bm i).dweight = some 0
        ∧ get_vertex_weight r.bm i = get_vertex_weight bm i) := by
  obtain ⟨vs2, subs, hd, hs, hrr⟩ := grow_step_ok_elim h
  subst hrr
  have hdw := dweight_decayed hd hi
  refine ⟨?_, hdw, fun hnone hpos => ?_⟩
  · show vs2.length = _
    rw [decay_verts_ok hd, List.length_map, integrate_phase_length]
  · have hw0 : get_vertex_weight bm i = 0 := by
      unfold get_vertex_weight vertWeight
      rw [hnone]
    have hz : (0 : ℝ) ^ p.weight_decay = 0 := Real.zero_rpow (ne_of_gt hpos)
    constructor
    · rw [hdw, hw0, hz]
    · show vertWeight (getVert (⟨vs2, (integrate_phase p bm).edges⟩ : BMesh) i)
          = get_vertex_weight bm i
      rw [vertWeight_eq_of_dweight hdw, hw0, hz]

/-- Witness for C10 on the concrete one-vertex mesh whose vertex has no
weight entry. -/
theorem step_weight_entry_witness :
    grow_step pW bmW = .ok rW ∧ 0 < bmW.verts.length
    ∧ (rW.bm.verts.length = bmW.verts.length
       ∧ (getVert rW.bm 0).dweight
           = some (get_vertex_weight bmW 0 ^ pW.weight_decay)
       ∧ ((getVert bmW 0).dweight = none → 0 < pW.weight_decay →
           (getVert rW.bm 0).dweight = some 0
           ∧ get_vertex_weight rW.bm 0 = get_vertex_weight bmW 0)) :=
  ⟨grow_step_pW_bmW, by simp [bmW],
    step_weight_entry pW bmW rW grow_step_pW_bmW 0 (by simp [bmW])⟩

/-- C5: a vertex whose weight is exactly 0 at step start receives no
position update from the force loop, and its position is still unchanged
in the step result handed to the subdivision phase. -/
theorem zero_weight_position_fixed (p : Params) (bm : BMesh) (i : Nat)
    (h : get_vertex_weight bm i = 0) :
    getCo (integrate_phase p bm) i = getCo bm i
    ∧ ∀ r, grow_step p bm = .ok r → getCo r.bm i = getCo bm i := by
  have h1 : getCo (integrate_phase p bm) i = getCo bm i :=
    foldl_integrate_co_notmem p _ (not_mem_active_of_weight_zero h) bm
  refine ⟨h1, fun r hr => ?_⟩
  obtain ⟨vs2, subs, hd, hs, hrr⟩ := grow_step_ok_elim hr
  subst hrr
  show getCo (⟨vs2, (integrate_phase p bm).edges⟩ : BMesh) i = _
  rw [getCo_decayed hd, h1]

/-- Witness for C5 on the concrete one-vertex mesh. -/
theorem zero_weight_position_fixed_witness :
    get_vertex_weight bmW 0 = 0
    ∧ (getCo (integrate_phase pW bmW) 0 = getCo bmW 0
       ∧ ∀ r, grow_step pW bmW = .ok r → getCo r.bm 0 = getCo bmW 0) :=
  ⟨rfl, zero_weight_position_fixed pW bmW 0 rfl⟩

/-- C6: when no vertex is active at step start, a successful step moves
no vertex, selects no edge for subdivision, and still decays every
vertex weight. -/
theorem no_active_step (p : Params) (bm : BMesh)
    (h : ∀ i, i < bm.verts.length → ¬ 0 < get_vertex_weight bm i)
    (r : StepResult) (hr : grow_step p bm = .ok r) :
    (∀ j, getCo r.bm j = getCo bm j)
    ∧ r.subdivided = []
    ∧ ∀ i, i < bm.verts.length →
        get_vertex_weight r.bm i = get_vertex_weight bm i ^ p.weight_decay := by
  have hact : active_verts bm = [] := by
    rw [List.eq_nil_iff_forall_not_mem]
    intro i hm
    have hm2 := mem_active_verts.1 hm
    exact h i hm2.1 hm2.2
  have hint : integrate_phase p bm = bm := by
    unfold integrate_phase
    rw [hact]
    rfl
  have hwzero : ∀ j, ¬ 0 < get_vertex_weight bm j := by
    intro j
    by_cases hj : j < bm.verts.length
    · exact h j hj
    · rw [get_vertex_weight_out_of_range bm (le_of_not_lt hj)]
      exact lt_irrefl 0
  have hcoll : collect_edges bm = [] := by
    unfold collect_edges
    rw [List.eq_nil_iff_forall_not_mem]
    intro e hm
    rw [List.mem_filter] at hm
    obtain ⟨-, hcond⟩ := hm
    rw [Bool.or_eq_true, decide_eq_true_eq, decide_eq_true_eq] at hcond
    rcases hcond with h1 | h1
    · exact hwzero e.1 h1
    · exact hwzero e.2 h1
  obtain ⟨vs2, subs, hd, hs, hrr⟩ := grow_step_ok_elim hr
  subst hrr
  refine ⟨fun j => ?_, ?_, fun i hi => ?_⟩
  · show getCo (⟨vs2, (integrate_phase p bm).edges⟩ : BMesh) j = _
    rw [getCo_decayed hd, hint]
  · show subs = []
    rw [hcoll] at hs
    have hs2 : (Except.ok ([] : List (Nat × Nat)) : Except PyErr _)
        = .ok subs := hs
    injection hs2 with hs2
    exact hs2.symm
  · exact get_vertex_weight_decayed hd hi

/-- Witness for C6 on the concrete one-vertex mesh with no active
vertex. -/
theorem no_active_step_witness :
    (∀ i, i < bmW.verts.length → ¬ 0 < get_vertex_weight bmW i)
    ∧ grow_step pW bmW = .ok rW
    ∧ ((∀ j, getCo rW.bm j = getCo bmW j)
       ∧ rW.subdivided = []
       ∧ ∀ i, i < bmW.verts.length →
           get_vertex_weight rW.bm i = get_vertex_weight bmW i ^ pW.weight_decay) := by
  have hyp : ∀ i, i < bmW.verts.length → ¬ 0 < get_vertex_weight bmW i := by
    intro i hi
    have hi0 : i = 0 := by
      rw [show bmW.verts.length = 1 from rfl] at hi
      omega
    subst hi0
    rw [show get_vertex_weight bmW 0 = 0 from rfl]
    exact lt_irrefl 0
  exact ⟨hyp, grow_step_pW_bmW, no_active_step pW bmW hyp rW grow_step_pW_bmW⟩

/-! ## Concrete evaluation: the two-vertex mesh `bmE` -/

theorem active_verts_bmE : active_verts bmE = [0, 1] := by
  unfold active_verts
  rw [show bmE.verts.length = 2 from rfl,
    show List.range 2 = [0, 1] from by decide,
    List.filter_cons, List.filter_cons]
  rw [show decide (0 < get_vertex_weight bmE 0) = true from
    decide_eq_true (by
      rw [show get_vertex_weight bmE 0 = (1 : ℝ) from rfl]
      exact one_pos)]
  rw [show decide (0 < get_vertex_weight bmE 1) = true from
    decide_eq_true (by
      rw [show get_vertex_weight bmE 1 = (1 : ℝ) from rfl]
      exact one_pos)]
  simp

theorem integrate_step_bmE0 (p : Params) (hdt : p.dt = 0) :
    integrate_step p (kd_points bmE) bmE 0 = bmE := by
  unfold integrate_step
  rw [if_neg (show ¬ get_vertex_weight bmE 0 = 0 from by
    rw [show get_vertex_weight bmE 0 = (1 : ℝ) from rfl]
    exact one_ne_zero)]
  rw [hdt, zero_mul, zero_mul, zero_smul, add_zero]
  rfl

theorem integrate_step_bmE1 (p : Params) (hdt : p.dt = 0) :
    integrate_step p (kd_points bmE) bmE 1 = bmE := by
  unfold integrate_step
  rw [if_neg (show ¬ get_vertex_weight bmE 1 = 0 from by
    rw [show get_vertex_weight bmE 1 = (1 : ℝ) from rfl]
    exact one_ne_zero)]
  rw [hdt, zero_mul, zero_mul, zero_smul, add_zero]
  rfl

theorem integrate_phase_bmE (p : Params) (hdt : p.dt = 0) :
    integrate_phase p bmE = bmE := by
  unfold integrate_phase
  rw [active_verts_bmE, List.foldl_cons, integrate_step_bmE0 p hdt,
    List.foldl_cons, integrate_step_bmE1 p hdt]
  rfl

theorem decay_one_bmE : decay_verts (1 : ℝ) bmE.verts = .ok bmE.verts := by
  rw [decay_verts_of_nonneg (by norm_num : (0 : ℝ) ≤ 1) bmE.verts]
  simp [bmE, vertWeight, Real.rpow_one]

theorem collect_edges_bmE : collect_edges bmE = [(0, 1)] := by
  unfold collect_edges
  rw [show bmE.edges = [(0, 1)] from rfl, List.filter_cons]
  rw [show decide (0 < get_vertex_weight bmE (0, 1).1) = true from
    decide_eq_true (by
      rw [show get_vertex_weight bmE (0, 1).1 = (1 : ℝ) from rfl]
      exact one_pos)]
  rw [Bool.true_or]
  simp

theorem avg_bmE : calc_avg_edge_weight bmE [(0, 1)] = 1 := by
  rw [calc_avg_single]
  rw [show get_vertex_weight bmE (0, 1).1 = (1 : ℝ) from rfl,
    show get_vertex_weight bmE (0, 1).2 = (1 : ℝ) from rfl]
  norm_num

theorem select_bmE_zero_split :
    select_subdivide bmE (0 : ℝ) [(0, 1)] = .error .zeroDiv := by
  unfold select_subdivide
  rw [if_neg (show ¬ calc_avg_edge_weight bmE [(0, 1)] = 0 from by
    rw [avg_bmE]
    exact one_ne_zero)]
  rw [pyDiv_zero]

/-- C7 counterexample: a concrete mesh (two vertices of weight 1 joined
by one edge) and concrete parameters with `splitRadius = 0` make the
step raise Python's `ZeroDivisionError` at `l / split_radius`, so not
every real-valued parameter assignment completes without error. -/
theorem grow_step_zero_split_error :
    grow_step pE bmE = .error PyErr.zeroDiv := by
  have hint := integrate_phase_bmE pE (show pE.dt = 0 from rfl)
  have hdec : decay_verts pE.weight_decay (integrate_phase pE bmE).verts
      = .ok bmE.verts := by
    rw [hint, show pE.weight_decay = (1 : ℝ) from rfl]
    exact decay_one_bmE
  unfold grow_step
  rw [hdec]
  show (match select_subdivide ⟨bmE.verts, (integrate_phase pE bmE).edges⟩
        pE.split_radius (collect_edges bmE) with
      | .error er => (.error er : Except PyErr StepResult)
      | .ok subs => .ok ⟨⟨bmE.verts, (integrate_phase pE bmE).edges⟩, subs⟩)
    = .error PyErr.zeroDiv
  rw [hint, collect_edges_bmE,
    show (⟨bmE.verts, bmE.edges⟩ : BMesh) = bmE from rfl,
    show pE.split_radius = (0 : ℝ) from rfl, select_bmE_zero_split]

/-- C7 (amended): one simulation step completes without error for every
mesh, noise field and parameter assignment with a nonzero split radius
and a non-negative weight-decay exponent. -/
theorem grow_step_total (p : Params) (bm : BMesh) (h1 : p.split_radius ≠ 0)
    (h2 : 0 ≤ p.weight_decay) : ∃ r, grow_step p bm = .ok r := by
  obtain ⟨out, hout⟩ := select_subdivide_total
    (⟨(integrate_phase p bm).verts.map
        (fun v => { v with dweight := some (vertWeight v ^ p.weight_decay) }),
      (integrate_phase p bm).edges⟩ : BMesh) h1 (collect_edges bm)
  exact ⟨_, grow_step_ok_intro (decay_verts_of_nonneg h2 _) hout⟩

/-- Witness for the amended C7 at concrete parameters with split radius
1 and decay exponent 1. -/
theorem grow_step_total_witness :
    pW.split_radius ≠ 0 ∧ 0 ≤ pW.weight_decay
    ∧ ∃ r, grow_step pW bmW = .ok r :=
  ⟨by rw [show pW.split_radius = (1 : ℝ) from rfl]; exact one_ne_zero,
   by rw [show pW.weight_decay = (1 : ℝ) from rfl]; norm_num,
   grow_step_total pW bmW
     (by rw [show pW.split_radius = (1 : ℝ) from rfl]; exact one_ne_zero)
     (by rw [show pW.weight_decay = (1 : ℝ) from rfl]; norm_num)⟩

/-- C9: for a successful step on a mesh whose edge endpoints are in
range, an edge is selected for subdivision iff it was collected at step
start, its average endpoint weight measured after the decay pass (the
rpow of the pre-step weights, averaged) is nonzero, and the source's
predicate holds for the post-integration length against that post-decay
average weight. -/
theorem subdivide_post_decay (p : Params) (bm : BMesh) (r : StepResult)
    (hwf : ∀ e ∈ bm.edges, e.1 < bm.verts.length ∧ e.2 < bm.verts.length)
    (h : grow_step p bm = .ok r) (e : Nat × Nat) :
    e ∈ r.subdivided ↔
      e ∈ collect_edges bm
      ∧ (get_vertex_weight bm e.1 ^ p.weight_decay
          + get_vertex_weight bm e.2 ^ p.weight_decay) / 2 ≠ 0
      ∧ calc_length (integrate_phase p bm) e / p.split_radius
          > 1 / ((get_vertex_weight bm e.1 ^ p.weight_decay
              + get_vertex_weight bm e.2 ^ p.weight_decay) / 2) := by
  obtain ⟨vs2, subs, hd, hs, hrr⟩ := grow_step_ok_elim h
  subst hrr
  show e ∈ subs ↔ _
  rw [select_subdivide_sound hs e]
  by_cases hme : e ∈ collect_edges bm
  · have he : e ∈ bm.edges := List.mem_of_mem_filter hme
    obtain ⟨he1, he2⟩ := hwf e he
    have havg : calc_avg_edge_weight
        (⟨vs2, (integrate_phase p bm).edges⟩ : BMesh) [e]
        = (get_vertex_weight bm e.1 ^ p.weight_decay
            + get_vertex_weight bm e.2 ^ p.weight_decay) / 2 := by
      rw [calc_avg_single, get_vertex_weight_decayed hd he1,
        get_vertex_weight_decayed hd he2]
    have hlen : calc_length (⟨vs2, (integrate_phase p bm).edges⟩ : BMesh) e
        = calc_length (integrate_phase p bm) e := by
      unfold calc_length
      rw [getCo_decayed hd, getCo_decayed hd]
    rw [havg, hlen]
  · constructor
    · rintro ⟨hm, -, -⟩
      exact absurd hm hme
    · rintro ⟨hm, -, -⟩
      exact absurd hm hme

theorem grow_step_pW_bmE : grow_step pW bmE = .ok rS := by
  have hint := integrate_phase_bmE pW (show pW.dt = 0 from rfl)
  have hdec : decay_verts pW.weight_decay (integrate_phase pW bmE).verts
      = .ok bmE.verts := by
    rw [hint, show pW.weight_decay = (1 : ℝ) from rfl]
    exact decay_one_bmE
  have hlen0 : calc_length bmE (0, 1) = 0 := by
    unfold calc_length
    rw [show getCo bmE (0, 1).1 = (0 : Vec3) from rfl,
      show getCo bmE (0, 1).2 = (0 : Vec3) from rfl]
    unfold vdist
    rw [sub_self]
    exact (vnorm_eq_zero_iff 0).2 rfl
  have hsel : select_subdivide ⟨bmE.verts, (integrate_phase pW bmE).edges⟩
      pW.split_radius (collect_edges bmE) = .ok [] := by
    rw [hint, collect_edges_bmE,
      show (⟨bmE.verts, bmE.edges⟩ : BMesh) = bmE from rfl,
      show pW.split_radius = (1 : ℝ) from rfl]
    unfold select_subdivide
    rw [if_neg (show ¬ calc_avg_edge_weight bmE [(0, 1)] = 0 from by
      rw [avg_bmE]
      exact one_ne_zero)]
    rw [pyDiv_of_ne _ one_ne_zero, avg_bmE, pyDiv_of_ne 1 one_ne_zero]
    show (if calc_length bmE (0, 1) / 1 > 1 / 1 then Except.ok [(0, 1)]
        else Except.ok []) = Except.ok ([] : List (Nat × Nat))
    rw [if_neg (by
      rw [hlen0]
      norm_num)]
  rw [grow_step_ok_intro hdec hsel, hint]
  rfl

/-- Witness for C9 on the concrete two-vertex mesh with one collected
edge that the step does not select. -/
theorem subdivide_post_decay_witness :
    (∀ e ∈ bmE.edges, e.1 < bmE.verts.length ∧ e.2 < bmE.verts.length)
    ∧ grow_step pW bmE = .ok rS
    ∧ ((0, 1) ∈ rS.subdivided ↔
        (0, 1) ∈ collect_edges bmE
        ∧ (get_vertex_weight bmE (0, 1).1 ^ pW.weight_decay
            + get_vertex_weight bmE (0, 1).2 ^ pW.weight_decay) / 2 ≠ 0
        ∧ calc_length (integrate_phase pW bmE) (0, 1) / pW.split_radius
            > 1 / ((get_vertex_weight bmE (0, 1).1 ^ pW.weight_decay
                + get_vertex_weight bmE (0, 1).2 ^ pW.weight_decay) / 2)) := by
  have hwf : ∀ e ∈ bmE.edges, e.1 < bmE.verts.length ∧ e.2 < bmE.verts.length := by
    intro e he
    rw [show bmE.edges = [(0, 1)] from rfl, List.mem_singleton] at he
    subst he
    exact ⟨by simp [bmE], by simp [bmE]⟩
  exact ⟨hwf, grow_step_pW_bmE,
    subdivide_post_decay pW bmE rS hwf grow_step_pW_bmE (0, 1)⟩

/-! ## Concrete evaluation: the one-active-vertex mesh `bmA` -/

theorem active_verts_bmA : active_verts bmA = [0] := by
  unfold active_verts
  rw [show bmA.verts.length = 1 from rfl,
    show List.range 1 = [0] from by decide, List.filter_cons]
  rw [show decide (0 < get_vertex_weight bmA 0) = true from
    decide_eq_true (by
      rw [show get_vertex_weight bmA 0 = (1 : ℝ) from rfl]
      exact one_pos)]
  simp

/-- C1: for the `k`-th active vertex `v` (in active-set iteration
order), the force loop updates its position exactly once, to its
position in the state reached after processing the earlier active
vertices plus
`(attrCoeff*attraction + repCoeff*repulsion + noiseCoeff*noise) * dt^2 *
weight(v)` evaluated in that state with the pre-decay weight and the
pre-step kd snapshot; no other vertex position is written before the
subdivision phase (inactive vertices keep their initial position, and
the decay pass writes no position). -/
theorem step_position_update (p : Params) (bm : BMesh) (k v : Nat)
    (hv : (active_verts bm).get? k = some v) :
    getCo (integrate_phase p bm) v
      = getCo (integrateUpTo p bm k) v
        + (p.dt ^ 2 * get_vertex_weight bm v) •
            (p.fac_attr • calc_vert_attraction (integrateUpTo p bm k) v
             + p.fac_rep • calc_vert_repulsion (getCo (integrateUpTo p bm k) v) v
                 (kd_points bm) p.collision_radius
             + p.fac_noise • p.noiseFn
                 (p.noise_scale • getCo (integrateUpTo p bm k) v + seedVector p))
    ∧ (∀ j, j ∉ active_verts bm → getCo (integrate_phase p bm) j = getCo bm j)
    ∧ (∀ r, grow_step p bm = .ok r →
        ∀ j, getCo r.bm j = getCo (integrate_phase p bm) j) := by
  obtain ⟨hk, hget⟩ := List.get?_eq_some.1 hv
  refine ⟨?_, fun j hj => foldl_integrate_co_notmem p _ hj bm, fun r hr j => ?_⟩
  · have hmem : v ∈ active_verts bm := by
      rw [← hget]
      exact List.get_mem _ _ _
    have hw : 0 < get_vertex_weight bm v := (mem_active_verts.1 hmem).2
    have hvlen : v < bm.verts.length := (mem_active_verts.1 hmem).1
    have h1 : getCo (integrate_phase p bm) v
        = getCo (integrate_step p (kd_points bm) (integrateUpTo p bm k) v) v := by
      have h2 := integrate_phase_co_active p bm k hk
      rw [hget] at h2
      exact h2
    rw [h1, integrate_step_co_self p (kd_points bm) (integrateUpTo p bm k)
        (by rw [integrateUpTo_weight]; exact ne_of_gt hw)
        (by rw [integrateUpTo_length]; exact hvlen),
      integrateUpTo_weight, pow_two]
  · obtain ⟨vs2, subs, hd, hs, hrr⟩ := grow_step_ok_elim hr
    subst hrr
    exact getCo_decayed hd j

/-- Witness for C1 on the concrete one-active-vertex mesh. -/
theorem step_position_update_witness :
    (active_verts bmA).get? 0 = some 0
    ∧ (getCo (integrate_phase pW bmA) 0
        = getCo (integrateUpTo pW bmA 0) 0
          + (pW.dt ^ 2 * get_vertex_weight bmA 0) •
              (pW.fac_attr • calc_vert_attraction (integrateUpTo pW bmA 0) 0
               + pW.fac_rep • calc_vert_repulsion
                   (getCo (integrateUpTo pW bmA 0) 0) 0
                   (kd_points bmA) pW.collision_radius
               + pW.fac_noise • pW.noiseFn
                   (pW.noise_scale • getCo (integrateUpTo pW bmA 0) 0
                     + seedVector pW))
       ∧ (∀ j, j ∉ active_verts bmA → getCo (integrate_phase pW bmA) j = getCo bmA j)
       ∧ (∀ r, grow_step pW bmA = .ok r →
           ∀ j, getCo r.bm j = getCo (integrate_phase pW bmA) j)) := by
  have hv : (active_verts bmA).get? 0 = some 0 := by
    rw [active_verts_bmA]
    rfl
  exact ⟨hv, step_position_update pW bmA 0 0 hv⟩

end
